import Mathlib

/-!
Verification development for the face-api repository.

The development shallowly embeds the numeric and control-flow core of the
repository in Lean 4 over exact rational arithmetic:

* `face_clustering.py` — cosine-similarity matrix (`compute_cosine_similarities`),
  DBSCAN-based batch clustering (`cluster_faces`, with `min_samples = 1` and a
  precomputed `1 - similarity` distance matrix), the noise-label post-processing,
  and the clustering-quality evaluator (`evaluate_clustering_quality`).
* `face_embedding_processor.py` — the per-image digest unit (`process_image_file`)
  and the digest job driver (`digest_worker`), with external calls (image read,
  thumbnail upload, face extraction, embedding, store upsert) modelled as
  per-unit oracles recording how many consecutive failures each call site sees.
* Components the spec describes whose implementation is not present in the
  sources (the `FaceEmbeddingProcessor` class imported by `reindex_faces.py` and
  `face_search.py`, carrying the resumable `process_directory` orchestrator, and
  the incremental identity resolver) are modelled from the spec and marked so.

Floating-point arithmetic is replaced by exact rationals; square roots are
handled either exactly (`ratSqrt`, defined on rationals with rational roots) or
eliminated algebraically (`simGE`, comparing a cosine similarity against a
threshold without forming the square root).
-/

namespace FaceApi

/-- An embedding vector (a row of the numpy embedding matrix), as exact
rationals. -/
abbrev Vec := List ℚ

/-- Dot product of two vectors (`np.dot` on rows; trailing entries of the
longer vector are ignored, matching equal-dimension numpy rows). -/
def dot (u v : Vec) : ℚ := (List.zipWith (· * ·) u v).sum

/-- Squared Euclidean norm of a row: `np.linalg.norm(row)**2`. -/
def sumSq (v : Vec) : ℚ := dot v v

/-- Guarded squared norm: squared form of `norms[norms == 0] = 1` in
`compute_cosine_similarities` (face_clustering.py line 93). -/
def gsq (v : Vec) : ℚ := if sumSq v = 0 then 1 else sumSq v

/-- Scalar multiple of a vector. -/
def vsmul (c : ℚ) (v : Vec) : Vec := v.map (fun x => c * x)

/-- Componentwise difference of two vectors. -/
def vsub (u v : Vec) : Vec := List.zipWith (· - ·) u v

/-! ### Threshold comparison of cosine similarities, square-root free

`cluster_faces` (face_clustering.py lines 112–126) puts two records in the same
DBSCAN neighborhood iff `max(0, 1 - sim) <= eps` with `eps = 1 - τ`, i.e. iff
`sim >= τ`, where `sim = dot(u, v) / (‖u‖ ‖v‖)` with zero norms replaced by 1.
For `0 ≤ τ` and exact arithmetic this holds iff `0 ≤ dot(u, v)` and
`τ² · gsq u · gsq v ≤ dot(u, v)²`, which avoids forming the square roots. -/

/-- The neighborhood test of the precomputed-distance DBSCAN in
`cluster_faces`: cosine similarity of `u` and `v` (with the zero-norm guard of
`compute_cosine_similarities`) is at least `t`, stated in exact square-root-free
arithmetic (valid reading for `0 ≤ t`, and thresholds satisfy `0 < τ ≤ 1`). -/
def simGE (t : ℚ) (u v : Vec) : Bool :=
  decide (0 ≤ dot u v ∧ t ^ 2 * (gsq u * gsq v) ≤ dot u v ^ 2)

/-! ### Exact square roots and the similarity matrix

`compute_cosine_similarities` (face_clustering.py lines 81–99) computes row
norms, replaces zero norms by 1, divides each row by its guarded norm and takes
the matrix of dot products of the normalized rows. The embedding works over the
subdomain of inputs whose row norms are exact rationals (`ratSqrt` succeeds);
division is modelled as the fallible `divE` so that absence of division by zero
is a provable statement rather than a convention of `ℚ`. -/

/-- Exact rational square root: `some r` with `r ≥ 0 ∧ r² = q` when `q` is the
square of a rational, `none` otherwise. -/
def ratSqrt (q : ℚ) : Option ℚ :=
  if 0 ≤ q.num ∧ Nat.sqrt q.num.natAbs ^ 2 = q.num.natAbs ∧
      Nat.sqrt q.den ^ 2 = q.den then
    some ((Nat.sqrt q.num.natAbs : ℚ) / (Nat.sqrt q.den : ℚ))
  else none

/-- Fallible exact division: models a floating-point division that must not
have a zero divisor. -/
def divE (x d : ℚ) : Option ℚ := if d = 0 then none else some (x / d)

/-- Row norm with the zero guard of face_clustering.py line 93
(`norms[norms == 0] = 1`). -/
def guardedNorm (v : Vec) : Option ℚ :=
  (ratSqrt (sumSq v)).map (fun r => if r = 0 then 1 else r)

/-- Fallible traversal of a list: `some` of the image list when every element
maps to `some`, and `none` as soon as any element fails. -/
def seqOpt {α β : Type} (f : α → Option β) : List α → Option (List β)
  | [] => some []
  | x :: xs =>
    match f x, seqOpt f xs with
    | some y, some ys => some (y :: ys)
    | _, _ => none

/-- One row of `normalized = embeddings / norms` (face_clustering.py line 94). -/
def normalizeRow (v : Vec) : Option Vec :=
  match guardedNorm v with
  | some g => seqOpt (fun x => divE x g) v
  | none => none

/-- `compute_cosine_similarities` (face_clustering.py lines 81–99): normalize
all rows by their guarded norms and return the matrix of pairwise dot products
of the normalized rows. -/
def computeCosineSimilarities (es : List Vec) : Option (List (List ℚ)) :=
  match seqOpt normalizeRow es with
  | some ns => some (ns.map (fun u => ns.map (fun w => dot u w)))
  | none => none

/-! ### DBSCAN batch clustering (`cluster_faces`, face_clustering.py lines 101–138)

`cluster_faces` runs `DBSCAN(eps = 1 - τ, min_samples = 1, metric =
'precomputed')` on the matrix `max(0, 1 - sim)`. With `min_samples = 1`, a
point is core iff its `eps`-neighborhood (which includes the point itself only
when its self-distance is `≤ eps`, i.e. when its row is nonzero) is nonempty;
there are then no border points, so labelled clusters are exactly the connected
components of the neighbor relation restricted to core points, numbered in
first-scan order, and all non-core points get the noise label `-1`. The
component of each core index is found by index-minimum propagation iterated
`n` times, and clusters are numbered by first occurrence of their minimum
member, matching sklearn's scan order. -/

/-- Neighborhood test between records `i` and `j` of the embedding list:
distance `max(0, 1 - sim) ≤ eps = 1 - t`, i.e. `sim ≥ t`. -/
def nbrB (t : ℚ) (es : List Vec) (i j : ℕ) : Bool :=
  match es[i]?, es[j]? with
  | some u, some v => simGE t u v
  | _, _ => false

/-- Indices in record `i`'s `eps`-neighborhood. -/
def neighborIdx (t : ℚ) (es : List Vec) (i : ℕ) : List ℕ :=
  (List.range es.length).filter (fun j => nbrB t es i j)

/-- Core test: with `min_samples = 1` a record is core iff its neighborhood is
nonempty. -/
def isCore (t : ℚ) (es : List Vec) (i : ℕ) : Bool :=
  !(neighborIdx t es i).isEmpty

/-- Fold a list of indices down to the minimum of `f` over the list and a seed
value. -/
def minFold (f : ℕ → ℕ) (seed : ℕ) (l : List ℕ) : ℕ :=
  l.foldr (fun j m => min (f j) m) seed

/-- Iterated minimum-index propagation along the neighbor relation; after
`es.length` rounds every core record holds the minimum index of its connected
component, which is the cluster sklearn's scan assigns it to. -/
def repIter (t : ℚ) (es : List Vec) : ℕ → ℕ → ℕ
  | 0, i => i
  | k + 1, i => minFold (repIter t es k) (repIter t es k i) (neighborIdx t es i)

/-- Component representative (minimum reachable index) of record `i`. -/
def rep (t : ℚ) (es : List Vec) (i : ℕ) : ℕ :=
  repIter t es es.length i

/-- The representatives of the core components in first-scan order; a
cluster's label is the position of its representative in this list. -/
def coreReps (t : ℚ) (es : List Vec) : List ℕ :=
  (((List.range es.length).filter (fun i => isCore t es i)).map
    (fun i => rep t es i)).dedup

/-- The raw labelling `dbscan.fit_predict(distance_matrix)` of
face_clustering.py line 126: dense component numbers for core records and `-1`
for noise records. -/
def dbscanLabels (t : ℚ) (es : List Vec) : List Int :=
  (List.range es.length).map
    (fun i => if isCore t es i then ((coreReps t es).indexOf (rep t es i) : Int)
      else -1)

/-- The outlier rewrite of face_clustering.py lines 128–133: walk the label
array and give each `-1` entry the next id past the current maximum (numpy's
boolean-mask assignment with `arange(max+1, max+1+count)` is positional in
index order). -/
def replaceOutliers (m : Int) : List Int → List Int
  | [] => []
  | x :: xs =>
    if x = -1 then (m + 1) :: replaceOutliers (m + 1) xs
    else x :: replaceOutliers m xs

/-- Maximum entry of a label list (`cluster_labels.max()`), seeded with `-1`;
under the guard that some `-1` entry exists this equals the true maximum. -/
def listMaxI (l : List Int) : Int := l.foldr max (-1)

/-- `cluster_faces` (face_clustering.py lines 101–138): DBSCAN labels followed
by the unique-id rewrite of outliers. -/
def clusterFacesLabels (t : ℚ) (es : List Vec) : List Int :=
  if (dbscanLabels t es).any (fun x => x = -1) then
    replaceOutliers (listMaxI (dbscanLabels t es)) (dbscanLabels t es)
  else dbscanLabels t es

/-- Distinct values of a list in first-occurrence order: the key order of the
`clusters` dict that `cluster_worker` builds by insertion
(face_embedding_processor.py lines 1291–1298). -/
def firstOccur (ls : List Int) : List Int :=
  ls.foldl (fun acc x => if x ∈ acc then acc else acc ++ [x]) []

/-- Person-id assignment of the `cluster_worker` batch-clustering path
(face_embedding_processor.py lines 1291–1318): records are grouped by their
raw DBSCAN label in first-occurrence order and the groups receive
`person_{group_id}_{counter}` ids with `counter = 1, 2, ...` in that order
(the model keeps the counter). There is no outlier rewrite, so every record
carrying the noise label `-1` lands in the single `-1` group. -/
def clusterWorkerPersonIds (ls : List Int) : List ℕ :=
  ls.map (fun lab => (firstOccur ls).indexOf lab + 1)

/-- Minimum index in record `i`'s neighborhood (seeded with `i` itself). -/
def cmin (t : ℚ) (es : List Vec) (i : ℕ) : ℕ :=
  minFold (fun j => j) i (neighborIdx t es i)

/-- Two label lists induce the same partition of record indices. -/
def samePartition (l1 l2 : List Int) : Prop :=
  l1.length = l2.length ∧ ∀ i j : ℕ, (l1[i]? = l1[j]? ↔ l2[i]? = l2[j]?)

/-! ### Clustering-quality evaluator (`evaluate_clustering_quality`,
face_clustering.py lines 140–196), cluster-purity part

For each label produced by `np.unique` (sorted distinct labels) the code takes
the cluster's embeddings; only when the cluster has more than one record does
it normalize them (lines 176–177, with no zero-norm guard) and append the mean
of the upper-triangle pairwise similarities to `purities`; the reported purity
is `np.mean(purities)` when `purities` is nonempty and `1.0` otherwise
(line 184). Exact square roots stand in for the float norms. -/

/-- Sorted distinct labels, as `np.unique(cluster_labels)`. -/
def uniqueLabels (ls : List Int) : List Int :=
  List.insertionSort (· ≤ ·) ls.dedup

/-- The embeddings of the cluster with label `lab`
(`embeddings[cluster_labels == label]`). -/
def clusterVecs (es : List Vec) (ls : List Int) (lab : Int) : List Vec :=
  ((es.zip ls).filter (fun p => decide (p.2 = lab))).map (fun p => p.1)

/-- All unordered pairs with the first component earlier in the list: the
upper triangle `np.triu_indices_from(sim_matrix, k=1)` of the within-cluster
similarity matrix. -/
def upperPairs {α : Type} : List α → List (α × α)
  | [] => []
  | x :: xs => (xs.map (fun y => (x, y))) ++ upperPairs xs

/-- Arithmetic mean (`np.mean`). -/
def meanQ (xs : List ℚ) : ℚ := xs.sum / (xs.length : ℚ)

/-- Similarity of two rows normalized by their exact norms; `none` when a norm
is not an exact rational, or when a norm is zero (lines 176–177 have no
zero-norm guard, so a zero row would give a non-finite float here). -/
def pairSim (u v : Vec) : Option ℚ :=
  match ratSqrt (sumSq u), ratSqrt (sumSq v) with
  | some a, some b => divE (dot u v) (a * b)
  | _, _ => none

/-- Mean upper-triangle pairwise similarity of one cluster (lines 176–182). -/
def clusterPurity (vs : List Vec) : Option ℚ :=
  match seqOpt (fun p => pairSim p.1 p.2) (upperPairs vs) with
  | some sims => some (meanQ sims)
  | none => none

/-- The purity aggregate of `evaluate_clustering_quality` (lines 168–184):
clusters of size `> 1` contribute their mean pairwise similarity, in label
order; the average defaults to `1` when no such cluster exists. -/
def avgClusterPurity (es : List Vec) (ls : List Int) : Option ℚ :=
  match seqOpt (fun lab => clusterPurity (clusterVecs es ls lab))
      ((uniqueLabels ls).filter
        (fun lab => decide (1 < (clusterVecs es ls lab).length))) with
  | some purities => some (if purities.isEmpty then 1 else meanQ purities)
  | none => none

/-- The claim's purity formula: every singleton cluster contributes exactly
`1.0` to the across-cluster average. -/
def specAvgClusterPurityClaim (es : List Vec) (ls : List Int) : Option ℚ :=
  match seqOpt (fun lab =>
      if (clusterVecs es ls lab).length ≤ 1 then some (1 : ℚ)
      else clusterPurity (clusterVecs es ls lab)) (uniqueLabels ls) with
  | some purities => some (meanQ purities)
  | none => none

/-- The amended purity formula: the average ranges over the clusters with at
least two records only — singleton clusters are skipped — and when every
cluster is a singleton the reported purity defaults to `1`. -/
def specAvgPurityAmended (es : List Vec) (ls : List Int) : Option ℚ :=
  if ((uniqueLabels ls).filter
      (fun lab => decide (1 < (clusterVecs es ls lab).length))).isEmpty then
    some 1
  else
    Option.map meanQ
      (seqOpt (fun lab => clusterPurity (clusterVecs es ls lab))
        ((uniqueLabels ls).filter
          (fun lab => decide (1 < (clusterVecs es ls lab).length))))

/-! ### Digest pipeline (`digest_worker` / `process_image_file`,
face_embedding_processor.py lines 823–1196)

Each image's interaction with the external world is an oracle script: whether
the read/download yields an image, whether the thumbnail upload succeeds, how
many consecutive failures the face-extraction call sees, and per detected face
how many consecutive failures the embedding call and the store upsert see. A
`for attempt in range(max_retries + 1)` loop succeeds iff the failure count is
at most `max_retries`. The driver runs `executor.map(process_image_file,
image_files)`, which yields per-image results in submission order for every
pool size, and categorizes each result into exactly one of the `success` /
`no_faces` / `failed` lists. -/

/-- Oracle for the external calls of one detected face: consecutive failures
of `DeepFace.represent` and of `qclient.upsert` before success. -/
structure FaceCall where
  embedFails : ℕ
  upsertFails : ℕ
deriving DecidableEq, Repr

/-- Oracle for one image unit of a digest job. -/
structure ImageScript where
  isGcs : Bool
  readOk : Bool
  thumbOk : Bool
  extractFails : ℕ
  faces : List FaceCall
deriving DecidableEq, Repr

/-- Terminal per-image outcome (`result['status']`). -/
inductive UStatus
  | success
  | noFaces
  | failed
deriving DecidableEq, Repr

/-- A bounded-retry loop `for attempt in range(max_retries + 1)` succeeds iff
the call's consecutive failure count is at most `max_retries`. -/
def attemptOk (maxRetries fails : ℕ) : Bool := fails ≤ maxRetries

/-- Number of attempts the bounded-retry loop makes: one more than the
failures seen, capped at `max_retries + 1`. -/
def attemptsUsed (maxRetries fails : ℕ) : ℕ := min fails maxRetries + 1

/-- One face is persisted iff its embedding call and its store upsert both
succeed within the retry bound (exhaustion of either only `continue`s to the
next face, lines 1052–1110). -/
def persistFace (m : ℕ) (f : FaceCall) : Bool :=
  attemptOk m f.embedFails && attemptOk m f.upsertFails

/-- Result record of one `process_image_file` call. -/
structure UnitResult where
  status : UStatus
  upserted : ℕ
  thumbCreated : Bool
  thumbFailRecorded : Bool
deriving DecidableEq, Repr

/-- `process_image_file` (face_embedding_processor.py lines 936–1141): read,
thumbnail (GCS only, failures only recorded), extraction with retry, then per
face embedding+upsert with retry; `success` iff at least one face was
upserted, `no_faces` when extraction found none or no face survived,
`failed` on read failure or extraction retry exhaustion. -/
def processImageFile (m : ℕ) (s : ImageScript) : UnitResult :=
  if s.readOk then
    if attemptOk m s.extractFails then
      if s.faces.isEmpty then
        ⟨UStatus.noFaces, 0, s.isGcs && s.thumbOk, s.isGcs && !s.thumbOk⟩
      else
        if 0 < (s.faces.filter (fun f => persistFace m f)).length then
          ⟨UStatus.success, (s.faces.filter (fun f => persistFace m f)).length,
            s.isGcs && s.thumbOk, s.isGcs && !s.thumbOk⟩
        else
          ⟨UStatus.noFaces, 0, s.isGcs && s.thumbOk, s.isGcs && !s.thumbOk⟩
    else
      ⟨UStatus.failed, 0, s.isGcs && s.thumbOk, s.isGcs && !s.thumbOk⟩
  else
    ⟨UStatus.failed, 0, false, false⟩

/-- Terminal job status of a digest job. -/
inductive JStatus
  | processing
  | completed
  | failed
deriving DecidableEq, Repr

/-- Job record accumulated by the driver loop of `digest_worker`. -/
structure Job where
  status : JStatus
  totalImages : ℕ
  results : List UnitResult
  facesProcessed : ℕ
  thumbnailFailures : ℕ
deriving DecidableEq, Repr

/-- `digest_worker` after source enumeration: `none` models a fatal setup
error (job `failed`); otherwise the driver consumes `executor.map` — which
returns per-image results in submission order for every value of the
`threadCount` pool size — and the job completes with one categorized outcome
per enumerated image. -/
def digestWorker (m _threadCount : ℕ)
    (enumeration : Option (List ImageScript)) : Job :=
  match enumeration with
  | none => ⟨JStatus.failed, 0, [], 0, 0⟩
  | some imgs =>
    ⟨JStatus.completed, imgs.length,
      imgs.map (fun s => processImageFile m s),
      ((imgs.map (fun s => processImageFile m s)).map
        (fun r => r.upserted)).sum,
      ((imgs.map (fun s => processImageFile m s)).filter
        (fun r => r.thumbFailRecorded)).length⟩

/-- Boolean equality of unit statuses. -/
def statusEq : UStatus → UStatus → Bool
  | UStatus.success, UStatus.success => true
  | UStatus.noFaces, UStatus.noFaces => true
  | UStatus.failed, UStatus.failed => true
  | _, _ => false

/-- Number of unit results with the given terminal status (the length of the
corresponding outcome list of `ACTIVE_DIGESTS[job_id]`). -/
def countStatus (st : UStatus) (rs : List UnitResult) : ℕ :=
  (rs.filter (fun r => statusEq r.status st)).length

/-- An image script with the thumbnail-upload outcome replaced. -/
def setThumb (s : ImageScript) (b : Bool) : ImageScript :=
  ⟨s.isGcs, s.readOk, b, s.extractFails, s.faces⟩

/-- The spec's orchestrator example: 10 images, 3 deterministically failing
detection, 5 with one persisted face, 2 with no detected face. -/
def c1Imgs : List ImageScript :=
  List.replicate 3 ⟨false, true, true, 3, [⟨0, 0⟩]⟩ ++
  List.replicate 5 ⟨false, true, true, 0, [⟨0, 0⟩]⟩ ++
  List.replicate 2 ⟨false, true, true, 0, []⟩

/-! ### Spec-modelled components

`reindex_faces.py`, `face_search.py` and `face_search_ids.py` import a
`FaceEmbeddingProcessor` class (`process_directory`, `extract_face_embeddings`,
`reset_collection`) from `face_embedding_processor`, but the module in the
sources does not define it — the class implementing the resumable directory
orchestrator and the incremental identity resolver of spec §4.3/§4.4 is not
among the source files. These two components are therefore modelled from the
spec's words and the corresponding claims are settled against the model. -/

/-- Modelled from the spec: the resume state shared by the missing
`FaceEmbeddingProcessor.process_directory` orchestrator — "a persisted
already-processed set checked before work and updated after each image" —
together with the store's record count. -/
structure ResumeState where
  processed : List String
  storeCount : ℕ
deriving DecidableEq, Repr

/-- Modelled from the spec: processing of one image path by the missing
resumable orchestrator. The already-processed set is checked before work
(a recorded path is skipped: "reprocessing a completed path is a no-op") and
updated after the image; `facesOf` gives the number of face records the image
persists when actually processed. -/
def processUnit (facesOf : String → ℕ) (st : ResumeState) (path : String) :
    ResumeState :=
  if path ∈ st.processed then st
  else ⟨path :: st.processed, st.storeCount + facesOf path⟩

/-- Modelled from the spec: a full ingestion run of the missing
`process_directory` over an enumerated source. -/
def runIngestion (facesOf : String → ℕ) (st : ResumeState)
    (imgs : List String) : ResumeState :=
  imgs.foldl (processUnit facesOf) st

/-- Confidence tag attached by the incremental resolver
(spec §4.3: `{new, medium, high}`). -/
inductive ConfidenceTag
  | fresh
  | medium
  | high
deriving DecidableEq, Repr

/-- A top-K nearest-neighbor candidate returned by the store: an
already-labeled record's person id and its similarity score. -/
structure Candidate where
  personId : ℕ
  score : ℚ
deriving DecidableEq, Repr

/-- Left-to-right selection of a highest-scoring candidate, earliest wins
ties. -/
def pickBest : Option Candidate → List Candidate → Option Candidate
  | acc, [] => acc
  | acc, c :: cs =>
    pickBest (match acc with
      | none => some c
      | some b => if b.score < c.score then some c else some b) cs

/-- Modelled from the spec: among the store's top-K already-labeled
candidates, the missing incremental resolver keeps those with score ≥ τ and
selects the highest-scoring one (first wins ties). -/
def bestCandidate (tau : ℚ) (cands : List Candidate) : Option Candidate :=
  pickBest none (cands.filter (fun c => decide (tau ≤ c.score)))

/-- Modelled from the spec: the missing incremental resolver's decision for
one newly persisted unlabeled record. A candidate with score ≥ τ donates its
person id, tagged `high` when the score exceeds `0.85` and `medium`
otherwise; with no candidate at or above τ a fresh person id is minted with
tag `fresh` (the spec's "new"). -/
def resolveIncremental (tau : ℚ) (freshId : ℕ) (cands : List Candidate) :
    ℕ × ConfidenceTag :=
  match bestCandidate tau cands with
  | some b =>
    (b.personId, if 17/20 < b.score then ConfidenceTag.high
      else ConfidenceTag.medium)
  | none => (freshId, ConfidenceTag.fresh)

/-- A face record's payload fields touched by the resolver. -/
structure RecordPayload where
  personId : Option ℕ
  clusterTimestamp : Option ℕ
  confidenceTag : Option ConfidenceTag
deriving DecidableEq, Repr

/-- Modelled from the spec: the resolver's side effect — patch the record's
payload with the person id, timestamp and confidence tag. -/
def patchRecord (_r : RecordPayload) (res : ℕ × ConfidenceTag) (ts : ℕ) :
    RecordPayload :=
  ⟨some res.1, some ts, some res.2⟩

theorem dot_nil_left (v : Vec) : dot [] v = 0 := rfl

theorem dot_nil_right (u : Vec) : dot u [] = 0 := by
  cases u <;> rfl

theorem dot_cons (x y : ℚ) (u v : Vec) :
    dot (x :: u) (y :: v) = x * y + dot u v := by
  simp [dot, List.zipWith]

theorem dot_comm (u v : Vec) : dot u v = dot v u := by
  induction u generalizing v with
  | nil => cases v <;> rfl
  | cons x u ih =>
    cases v with
    | nil => rfl
    | cons y v => rw [dot_cons, dot_cons, ih, mul_comm]

theorem sumSq_cons (x : ℚ) (v : Vec) : sumSq (x :: v) = x * x + sumSq v := by
  simp [sumSq, dot_cons]

theorem sumSq_nonneg (v : Vec) : 0 ≤ sumSq v := by
  induction v with
  | nil => simp [sumSq, dot]
  | cons x v ih =>
    rw [sumSq_cons]
    have := mul_self_nonneg x
    linarith

theorem sumSq_eq_zero (v : Vec) (h : sumSq v = 0) : ∀ x ∈ v, x = 0 := by
  induction v with
  | nil => intro x hx; cases hx
  | cons y v ih =>
    rw [sumSq_cons] at h
    have h1 : 0 ≤ y * y := mul_self_nonneg y
    have h2 : 0 ≤ sumSq v := sumSq_nonneg v
    have hy : y * y = 0 := by linarith
    have hv : sumSq v = 0 := by linarith
    intro x hx
    rcases List.mem_cons.mp hx with hx | hx
    · subst hx; exact mul_self_eq_zero.mp hy
    · exact ih hv x hx

theorem dot_eq_zero_of_left_zero (u v : Vec) (h : ∀ x ∈ u, x = 0) :
    dot u v = 0 := by
  induction u generalizing v with
  | nil => rfl
  | cons x u ih =>
    cases v with
    | nil => rfl
    | cons y v =>
      rw [dot_cons, h x (List.mem_cons_self x u),
        ih v (fun z hz => h z (List.mem_cons_of_mem x hz))]
      ring

theorem gsq_pos (v : Vec) : 0 < gsq v := by
  unfold gsq
  split
  · norm_num
  · rename_i h
    exact lt_of_le_of_ne (sumSq_nonneg v) (Ne.symm h)

theorem gsq_of_ne_zero (v : Vec) (h : sumSq v ≠ 0) : gsq v = sumSq v :=
  if_neg h

theorem dot_vsmul_right (c : ℚ) (u v : Vec) :
    dot u (vsmul c v) = c * dot u v := by
  induction u generalizing v with
  | nil => simp [dot]
  | cons x u ih =>
    cases v with
    | nil => simp [vsmul, dot_nil_right]
    | cons y v =>
      simp only [vsmul, List.map_cons] at *
      rw [dot_cons, dot_cons, ih]
      ring

theorem sumSq_vsmul (c : ℚ) (v : Vec) :
    sumSq (vsmul c v) = c ^ 2 * sumSq v := by
  induction v with
  | nil => simp [vsmul, sumSq, dot]
  | cons x v ih =>
    simp only [vsmul, List.map_cons] at *
    rw [sumSq_cons, sumSq_cons, ih]
    ring

theorem vsmul_vsmul (c c' : ℚ) (v : Vec) :
    vsmul c (vsmul c' v) = vsmul (c * c') v := by
  simp [vsmul, List.map_map, Function.comp, mul_assoc]

theorem sumSq_vsub_expand (c : ℚ) (u v : Vec) (hlen : u.length = v.length) :
    sumSq (vsub v (vsmul c u)) =
      sumSq v - 2 * c * dot u v + c ^ 2 * sumSq u := by
  induction u generalizing v with
  | nil =>
    cases v with
    | nil => simp [vsub, vsmul, sumSq, dot]
    | cons y v => simp at hlen
  | cons x u ih =>
    cases v with
    | nil => simp at hlen
    | cons y v =>
      simp only [List.length_cons, Nat.succ_inj] at hlen
      simp only [vsub, vsmul, List.map_cons, List.zipWith_cons_cons] at *
      rw [sumSq_cons, sumSq_cons, sumSq_cons, dot_cons, ih v hlen]
      ring

theorem eq_vsmul_of_vsub_zero (c : ℚ) (u v : Vec) (hlen : u.length = v.length)
    (h : ∀ x ∈ vsub v (vsmul c u), x = 0) : v = vsmul c u := by
  induction u generalizing v with
  | nil =>
    cases v with
    | nil => rfl
    | cons y v => simp at hlen
  | cons x u ih =>
    cases v with
    | nil => simp at hlen
    | cons y v =>
      simp only [List.length_cons, Nat.succ_inj] at hlen
      simp only [vsub, vsmul, List.map_cons, List.zipWith_cons_cons] at *
      have h0 : y - c * x = 0 := h (y - c * x) (List.mem_cons_self _ _)
      have hrest := ih v hlen (fun z hz => h z (List.mem_cons_of_mem _ hz))
      have : y = c * x := by linarith
      rw [this, hrest]

theorem simGE_iff (t : ℚ) (u v : Vec) :
    simGE t u v = true ↔ 0 ≤ dot u v ∧ t ^ 2 * (gsq u * gsq v) ≤ dot u v ^ 2 := by
  simp [simGE]

theorem simGE_symm (t : ℚ) (u v : Vec) : simGE t u v = simGE t v u := by
  unfold simGE
  rw [dot_comm u v, mul_comm (gsq u) (gsq v)]

theorem simGE_one_facts (u v : Vec) (h : simGE 1 u v = true) :
    sumSq u ≠ 0 ∧ sumSq v ≠ 0 ∧ 0 < dot u v := by
  rw [simGE_iff] at h
  obtain ⟨hd, hle⟩ := h
  have hgu := gsq_pos u
  have hgv := gsq_pos v
  have hsq : 0 < dot u v ^ 2 := by nlinarith
  have hdpos : 0 < dot u v := by
    rcases lt_or_eq_of_le hd with h | h
    · exact h
    · exfalso; rw [← h] at hsq; simp at hsq
  refine ⟨?_, ?_, hdpos⟩
  · intro h0
    have := dot_eq_zero_of_left_zero u v (sumSq_eq_zero u h0)
    rw [this] at hdpos; exact lt_irrefl 0 hdpos
  · intro h0
    have := dot_eq_zero_of_left_zero v u (sumSq_eq_zero v h0)
    rw [dot_comm u v, this] at hdpos; exact lt_irrefl 0 hdpos

theorem simGE_one_refl (u : Vec) (h : sumSq u ≠ 0) : simGE 1 u u = true := by
  rw [simGE_iff, gsq_of_ne_zero u h]
  constructor
  · exact sumSq_nonneg u
  · unfold sumSq; ring_nf; exact le_refl _

theorem simGE_one_parallel (u v : Vec) (hlen : u.length = v.length)
    (h : simGE 1 u v = true) :
    v = vsmul (dot u v / sumSq u) u ∧ 0 < dot u v / sumSq u := by
  obtain ⟨hu, hv, hd⟩ := simGE_one_facts u v h
  rw [simGE_iff, gsq_of_ne_zero u hu, gsq_of_ne_zero v hv] at h
  obtain ⟨-, hle⟩ := h
  have hupos : 0 < sumSq u := lt_of_le_of_ne (sumSq_nonneg u) (Ne.symm hu)
  set c : ℚ := dot u v / sumSq u with hc
  have hcpos : 0 < c := div_pos hd hupos
  have hexp := sumSq_vsub_expand c u v hlen
  have hval : sumSq v - 2 * c * dot u v + c ^ 2 * sumSq u =
      sumSq v - dot u v ^ 2 / sumSq u := by
    rw [hc]; field_simp; ring
  have hle2 : sumSq v - dot u v ^ 2 / sumSq u ≤ 0 := by
    rw [sub_nonpos, le_div_iff₀ hupos]
    calc sumSq v * sumSq u = sumSq u * sumSq v := by ring
    _ ≤ dot u v ^ 2 := by nlinarith
  have hge : 0 ≤ sumSq (vsub v (vsmul c u)) := sumSq_nonneg _
  have hzero : sumSq (vsub v (vsmul c u)) = 0 := by
    rw [hexp, hval]; linarith
  exact ⟨eq_vsmul_of_vsub_zero c u v hlen (sumSq_eq_zero _ hzero), hcpos⟩

theorem simGE_one_of_vsmul (u : Vec) (c : ℚ) (hc : 0 < c) (hu : sumSq u ≠ 0) :
    simGE 1 u (vsmul c u) = true := by
  have hupos : 0 < sumSq u := lt_of_le_of_ne (sumSq_nonneg u) (Ne.symm hu)
  have hdot : dot u (vsmul c u) = c * sumSq u := by
    rw [dot_vsmul_right]; rfl
  have hw : sumSq (vsmul c u) ≠ 0 := by
    rw [sumSq_vsmul]
    positivity
  rw [simGE_iff, gsq_of_ne_zero u hu, gsq_of_ne_zero _ hw, hdot, sumSq_vsmul]
  constructor
  · positivity
  · ring_nf; exact le_refl _

theorem simGE_one_trans (u v w : Vec) (huv : u.length = v.length)
    (hvw : v.length = w.length) (h1 : simGE 1 u v = true)
    (h2 : simGE 1 v w = true) : simGE 1 u w = true := by
  obtain ⟨hu, hv, -⟩ := simGE_one_facts u v h1
  obtain ⟨hpar1, hc1⟩ := simGE_one_parallel u v huv h1
  obtain ⟨hpar2, hc2⟩ := simGE_one_parallel v w hvw h2
  set c1 : ℚ := dot u v / sumSq u with hc1def
  set c2 : ℚ := dot v w / sumSq v with hc2def
  rw [hpar1] at hpar2
  rw [hpar2, vsmul_vsmul]
  exact simGE_one_of_vsmul u _ (mul_pos hc2 hc1) hu

theorem ratSqrt_correct (q r : ℚ) (h : ratSqrt q = some r) :
    0 ≤ r ∧ r ^ 2 = q := by
  unfold ratSqrt at h
  split at h
  · rename_i hcond
    obtain ⟨hnum, hn, hd⟩ := hcond
    injection h with h
    subst h
    have hdenpos : 0 < q.den := q.pos
    have hbne : (Nat.sqrt q.den : ℚ) ≠ 0 := by
      intro h0
      have : Nat.sqrt q.den = 0 := by exact_mod_cast h0
      rw [this] at hd
      simp at hd
      omega
    constructor
    · positivity
    · rw [div_pow]
      have h1 : ((Nat.sqrt q.num.natAbs : ℚ)) ^ 2 = (q.num.natAbs : ℚ) := by
        exact_mod_cast hn
      have h2 : ((Nat.sqrt q.den : ℚ)) ^ 2 = (q.den : ℚ) := by
        exact_mod_cast hd
      have h3 : ((q.num.natAbs : ℚ)) = (q.num : ℚ) := by
        rw [Int.cast_natAbs]
        exact_mod_cast abs_of_nonneg hnum
      rw [h1, h2, h3]
      exact Rat.num_div_den q
  · exact absurd h (by simp)

theorem seqOpt_isSome {α β : Type} (f : α → Option β) (l : List α)
    (h : ∀ a ∈ l, (f a).isSome) : (seqOpt f l).isSome := by
  induction l with
  | nil => rfl
  | cons x xs ih =>
    obtain ⟨y, hy⟩ :=
      Option.isSome_iff_exists.mp (h x (List.mem_cons_self x xs))
    obtain ⟨ys, hys⟩ :=
      Option.isSome_iff_exists.mp (ih (fun a ha => h a (List.mem_cons_of_mem x ha)))
    simp [seqOpt, hy, hys]

theorem seqOpt_length {α β : Type} (f : α → Option β) (l : List α)
    (ys : List β) (h : seqOpt f l = some ys) : ys.length = l.length := by
  induction l generalizing ys with
  | nil =>
    simp only [seqOpt, Option.some.injEq] at h
    subst h; rfl
  | cons x xs ih =>
    cases hx : f x with
    | none => simp [seqOpt, hx] at h
    | some y =>
      cases hxs : seqOpt f xs with
      | none => simp [seqOpt, hx, hxs] at h
      | some zs =>
        simp only [seqOpt, hx, hxs, Option.some.injEq] at h
        subst h
        simp [ih zs hxs]

theorem guardedNorm_ne_zero (v : Vec) (g : ℚ) (h : guardedNorm v = some g) :
    g ≠ 0 := by
  unfold guardedNorm at h
  cases hr : ratSqrt (sumSq v) with
  | none => rw [hr] at h; simp at h
  | some r =>
    rw [hr] at h
    simp only [Option.map_some', Option.some.injEq] at h
    subst h
    split
    · norm_num
    · assumption

theorem normalizeRow_isSome (v : Vec) (h : (ratSqrt (sumSq v)).isSome) :
    (normalizeRow v).isSome := by
  unfold normalizeRow
  obtain ⟨r, hr⟩ := Option.isSome_iff_exists.mp h
  have hg : guardedNorm v = some (if r = 0 then 1 else r) := by
    unfold guardedNorm; rw [hr]; rfl
  have hne := guardedNorm_ne_zero v _ hg
  rw [hg]
  exact seqOpt_isSome _ v (fun x _ => by simp [divE, hne])

theorem minFold_le_seed (f : ℕ → ℕ) (seed : ℕ) (l : List ℕ) :
    minFold f seed l ≤ seed := by
  induction l with
  | nil => exact le_refl _
  | cons x xs ih =>
    exact le_trans (min_le_right _ _) ih

theorem minFold_le_mem (f : ℕ → ℕ) (seed : ℕ) (l : List ℕ) (j : ℕ)
    (hj : j ∈ l) : minFold f seed l ≤ f j := by
  induction l with
  | nil => cases hj
  | cons x xs ih =>
    rcases List.mem_cons.mp hj with h | h
    · subst h; exact min_le_left _ _
    · exact le_trans (min_le_right _ _) (ih h)

theorem minFold_mem_or_seed (f : ℕ → ℕ) (seed : ℕ) (l : List ℕ) :
    minFold f seed l = seed ∨ ∃ j ∈ l, minFold f seed l = f j := by
  induction l with
  | nil => exact Or.inl rfl
  | cons x xs ih =>
    have hstep : minFold f seed (x :: xs) = min (f x) (minFold f seed xs) := rfl
    rcases le_total (f x) (minFold f seed xs) with h | h
    · exact Or.inr ⟨x, List.mem_cons_self x xs, by rw [hstep]; exact min_eq_left h⟩
    · rcases ih with h' | ⟨j, hj, h'⟩
      · exact Or.inl (by rw [hstep, min_eq_right h, h'])
      · exact Or.inr ⟨j, List.mem_cons_of_mem x hj,
          by rw [hstep, min_eq_right h, h']⟩

theorem minFold_const (f : ℕ → ℕ) (a : ℕ) (l : List ℕ)
    (h : ∀ j ∈ l, f j = a) : minFold f a l = a := by
  induction l with
  | nil => rfl
  | cons x xs ih =>
    show min (f x) (minFold f a xs) = a
    rw [h x (List.mem_cons_self x xs),
      ih (fun j hj => h j (List.mem_cons_of_mem x hj)), min_self]

theorem minFold_congr (f g : ℕ → ℕ) (seed : ℕ) (l : List ℕ)
    (h : ∀ j ∈ l, f j = g j) : minFold f seed l = minFold g seed l := by
  induction l with
  | nil => rfl
  | cons x xs ih =>
    show min (f x) (minFold f seed xs) = min (g x) (minFold g seed xs)
    rw [h x (List.mem_cons_self x xs),
      ih (fun j hj => h j (List.mem_cons_of_mem x hj))]

theorem replaceOutliers_length (m : Int) (l : List Int) :
    (replaceOutliers m l).length = l.length := by
  induction l generalizing m with
  | nil => rfl
  | cons x xs ih =>
    unfold replaceOutliers
    split <;> simp [ih]

theorem replaceOutliers_keep (m : Int) (l : List Int) (i : ℕ) (x : Int)
    (hx : l[i]? = some x) (hne : x ≠ -1) :
    (replaceOutliers m l)[i]? = some x := by
  induction l generalizing m i with
  | nil => simp at hx
  | cons y ys ih =>
    cases i with
    | zero =>
      simp only [List.getElem?_cons_zero, Option.some.injEq] at hx
      subst hx
      unfold replaceOutliers
      rw [if_neg hne]
      simp
    | succ i =>
      simp only [List.getElem?_cons_succ] at hx
      unfold replaceOutliers
      split
      · simpa using ih (m + 1) i hx
      · simpa using ih m i hx

theorem replaceOutliers_fresh (m : Int) (l : List Int) (i : ℕ)
    (hx : l[i]? = some (-1)) :
    ∃ y, (replaceOutliers m l)[i]? = some y ∧ m < y := by
  induction l generalizing m i with
  | nil => simp at hx
  | cons z zs ih =>
    cases i with
    | zero =>
      simp only [List.getElem?_cons_zero, Option.some.injEq] at hx
      unfold replaceOutliers
      rw [if_pos hx]
      exact ⟨m + 1, by simp, lt_add_one m⟩
    | succ i =>
      simp only [List.getElem?_cons_succ] at hx
      unfold replaceOutliers
      split
      · obtain ⟨y, hy, hmy⟩ := ih (m + 1) i hx
        exact ⟨y, by simpa using hy, lt_trans (lt_add_one m) hmy⟩
      · obtain ⟨y, hy, hmy⟩ := ih m i hx
        exact ⟨y, by simpa using hy, hmy⟩

theorem replaceOutliers_strict (m : Int) (l : List Int) (i j : ℕ)
    (hij : i < j) (hi : l[i]? = some (-1)) (hj : l[j]? = some (-1)) :
    ∃ y z, (replaceOutliers m l)[i]? = some y ∧
      (replaceOutliers m l)[j]? = some z ∧ y < z := by
  induction l generalizing m i j with
  | nil => simp at hi
  | cons x xs ih =>
    cases i with
    | zero =>
      simp only [List.getElem?_cons_zero, Option.some.injEq] at hi
      obtain ⟨j', rfl⟩ : ∃ j', j = j' + 1 := ⟨j - 1, by omega⟩
      simp only [List.getElem?_cons_succ] at hj
      unfold replaceOutliers
      rw [if_pos hi]
      obtain ⟨z, hz, hmz⟩ := replaceOutliers_fresh (m + 1) xs j' hj
      exact ⟨m + 1, z, by simp, by simpa using hz, hmz⟩
    | succ i' =>
      obtain ⟨j', rfl⟩ : ∃ j', j = j' + 1 := ⟨j - 1, by omega⟩
      simp only [List.getElem?_cons_succ] at hi hj
      have hij' : i' < j' := by omega
      unfold replaceOutliers
      split
      · obtain ⟨y, z, hy, hz, hyz⟩ := ih (m + 1) i' j' hij' hi hj
        exact ⟨y, z, by simpa using hy, by simpa using hz, hyz⟩
      · obtain ⟨y, z, hy, hz, hyz⟩ := ih m i' j' hij' hi hj
        exact ⟨y, z, by simpa using hy, by simpa using hz, hyz⟩

theorem listMaxI_bound (l : List Int) (x : Int) (hx : x ∈ l) :
    x ≤ listMaxI l := by
  induction l with
  | nil => cases hx
  | cons y ys ih =>
    rcases List.mem_cons.mp hx with h | h
    · subst h; exact le_max_left _ _
    · exact le_trans (ih h) (le_max_right _ _)

/-! ### Structure of the neighbor relation at threshold τ = 1 (eps = 0)

At `τ = 1` the guarded cosine similarity of `u` and `v` is at least `1` iff
both rows are nonzero and positively parallel, i.e. iff their cosine distance
after normalization is exactly `0`. The relation is therefore symmetric and
transitive, its connected components among core records are its classes, and
all-zero rows (whose self-distance is `1 > eps`) are DBSCAN noise. -/

theorem nbrB_some (t : ℚ) (es : List Vec) (i j : ℕ) :
    nbrB t es i j = true ↔
      ∃ u v, es[i]? = some u ∧ es[j]? = some v ∧ simGE t u v = true := by
  unfold nbrB
  cases hu : es[i]? <;> cases hv : es[j]? <;> simp

theorem nbrB_symm (t : ℚ) (es : List Vec) (i j : ℕ) :
    nbrB t es i j = nbrB t es j i := by
  unfold nbrB
  cases hu : es[i]? <;> cases hv : es[j]? <;> simp [simGE_symm]

theorem nbrB_lt_length (t : ℚ) (es : List Vec) (i j : ℕ)
    (h : nbrB t es i j = true) : i < es.length ∧ j < es.length := by
  rw [nbrB_some] at h
  obtain ⟨u, v, hu, hv, -⟩ := h
  constructor
  · by_contra hc
    rw [List.getElem?_eq_none (by omega)] at hu
    cases hu
  · by_contra hc
    rw [List.getElem?_eq_none (by omega)] at hv
    cases hv

theorem mem_neighborIdx (t : ℚ) (es : List Vec) (i j : ℕ) :
    j ∈ neighborIdx t es i ↔ nbrB t es i j = true := by
  unfold neighborIdx
  rw [List.mem_filter, List.mem_range]
  constructor
  · rintro ⟨-, h⟩; exact h
  · intro h; exact ⟨(nbrB_lt_length t es i j h).2, h⟩

theorem isCore_iff_exists (t : ℚ) (es : List Vec) (i : ℕ) :
    isCore t es i = true ↔ ∃ j, nbrB t es i j = true := by
  unfold isCore
  rw [Bool.not_eq_eq_eq_not, Bool.not_true, List.isEmpty_eq_false]
  constructor
  · intro h
    rcases List.exists_mem_of_ne_nil _ h with ⟨j, hj⟩
    exact ⟨j, (mem_neighborIdx t es i j).mp hj⟩
  · rintro ⟨j, hj⟩
    intro hc
    have := (mem_neighborIdx t es i j).mpr hj
    rw [hc] at this
    cases this

theorem nbrB_one_self (es : List Vec) (i j : ℕ)
    (h : nbrB 1 es i j = true) : nbrB 1 es i i = true := by
  rw [nbrB_some] at h ⊢
  obtain ⟨u, v, hu, hv, hs⟩ := h
  exact ⟨u, u, hu, hu, simGE_one_refl u (simGE_one_facts u v hs).1⟩

theorem isCore_of_nbrB_one (es : List Vec) (i j : ℕ)
    (h : nbrB 1 es i j = true) : isCore 1 es i = true :=
  (isCore_iff_exists 1 es i).mpr ⟨i, nbrB_one_self es i j h⟩

theorem isCore_one_iff (es : List Vec) (i : ℕ) :
    isCore 1 es i = true ↔ ∃ u, es[i]? = some u ∧ sumSq u ≠ 0 := by
  constructor
  · intro h
    obtain ⟨j, hj⟩ := (isCore_iff_exists 1 es i).mp h
    rw [nbrB_some] at hj
    obtain ⟨u, v, hu, hv, hs⟩ := hj
    exact ⟨u, hu, (simGE_one_facts u v hs).1⟩
  · rintro ⟨u, hu, hne⟩
    refine (isCore_iff_exists 1 es i).mpr ⟨i, ?_⟩
    rw [nbrB_some]
    exact ⟨u, u, hu, hu, simGE_one_refl u hne⟩

theorem nbrB_one_trans (es : List Vec) (d : ℕ)
    (hdim : ∀ v ∈ es, v.length = d) (i j k : ℕ)
    (h1 : nbrB 1 es i j = true) (h2 : nbrB 1 es j k = true) :
    nbrB 1 es i k = true := by
  rw [nbrB_some] at h1 h2 ⊢
  obtain ⟨u, v, hu, hv, hs1⟩ := h1
  obtain ⟨v2, w, hv2, hw, hs2⟩ := h2
  rw [hv] at hv2
  injection hv2 with hv2
  subst hv2
  have hlu : u.length = d := hdim u (List.getElem?_mem hu)
  have hlv : v.length = d := hdim v (List.getElem?_mem hv)
  have hlw : w.length = d := hdim w (List.getElem?_mem hw)
  exact ⟨u, w, hu, hw,
    simGE_one_trans u v w (by rw [hlu, hlv]) (by rw [hlv, hlw]) hs1 hs2⟩

theorem neighborIdx_one_eq (es : List Vec) (d : ℕ)
    (hdim : ∀ v ∈ es, v.length = d) (i j : ℕ)
    (h : nbrB 1 es i j = true) :
    neighborIdx 1 es i = neighborIdx 1 es j := by
  unfold neighborIdx
  apply List.filter_congr
  intro k _
  cases hik : nbrB 1 es i k with
  | true =>
    have hji : nbrB 1 es j i = true := by rw [← nbrB_symm]; exact h
    rw [nbrB_one_trans es d hdim j i k hji hik]
  | false =>
    cases hjk : nbrB 1 es j k with
    | true =>
      have := nbrB_one_trans es d hdim i j k h hjk
      rw [this] at hik
      cases hik
    | false => rfl

theorem cmin_mem (t : ℚ) (es : List Vec) (i : ℕ)
    (hself : i ∈ neighborIdx t es i) :
    cmin t es i ∈ neighborIdx t es i := by
  rcases minFold_mem_or_seed (fun j => j) i (neighborIdx t es i) with h | ⟨j, hj, h⟩
  · rw [cmin, h]; exact hself
  · rw [cmin, h]; exact hj

theorem cmin_le_mem (t : ℚ) (es : List Vec) (i j : ℕ)
    (hj : j ∈ neighborIdx t es i) : cmin t es i ≤ j :=
  minFold_le_mem (fun j => j) i _ j hj

theorem self_mem_neighborIdx_one (es : List Vec) (i : ℕ)
    (hc : isCore 1 es i = true) : i ∈ neighborIdx 1 es i := by
  obtain ⟨j, hj⟩ := (isCore_iff_exists 1 es i).mp hc
  exact (mem_neighborIdx 1 es i i).mpr (nbrB_one_self es i j hj)

theorem cmin_one_eq_of_nbr (es : List Vec) (d : ℕ)
    (hdim : ∀ v ∈ es, v.length = d) (i j : ℕ)
    (h : nbrB 1 es i j = true) : cmin 1 es i = cmin 1 es j := by
  have hci : isCore 1 es i = true := isCore_of_nbrB_one es i j h
  have hcj : isCore 1 es j = true := by
    apply isCore_of_nbrB_one es j i
    rw [← nbrB_symm]; exact h
  have hN : neighborIdx 1 es i = neighborIdx 1 es j :=
    neighborIdx_one_eq es d hdim i j h
  have hmi : cmin 1 es i ∈ neighborIdx 1 es i :=
    cmin_mem 1 es i (self_mem_neighborIdx_one es i hci)
  have hmj : cmin 1 es j ∈ neighborIdx 1 es j :=
    cmin_mem 1 es j (self_mem_neighborIdx_one es j hcj)
  apply le_antisymm
  · exact cmin_le_mem 1 es i _ (by rw [hN]; exact hmj)
  · exact cmin_le_mem 1 es j _ (by rw [← hN]; exact hmi)

theorem nbrB_of_cmin_one_eq (es : List Vec) (d : ℕ)
    (hdim : ∀ v ∈ es, v.length = d) (i j : ℕ)
    (hci : isCore 1 es i = true) (hcj : isCore 1 es j = true)
    (h : cmin 1 es i = cmin 1 es j) : nbrB 1 es i j = true := by
  have hmi : cmin 1 es i ∈ neighborIdx 1 es i :=
    cmin_mem 1 es i (self_mem_neighborIdx_one es i hci)
  have hmj : cmin 1 es j ∈ neighborIdx 1 es j :=
    cmin_mem 1 es j (self_mem_neighborIdx_one es j hcj)
  have h1 : nbrB 1 es i (cmin 1 es i) = true := (mem_neighborIdx _ _ _ _).mp hmi
  have h2 : nbrB 1 es j (cmin 1 es j) = true := (mem_neighborIdx _ _ _ _).mp hmj
  rw [← h] at h2
  rw [nbrB_symm] at h2
  exact nbrB_one_trans es d hdim i (cmin 1 es i) j h1 h2

theorem repIter_noise (t : ℚ) (es : List Vec) (i : ℕ)
    (hc : isCore t es i = false) (k : ℕ) : repIter t es k i = i := by
  have hN : neighborIdx t es i = [] := by
    unfold isCore at hc
    rw [Bool.not_eq_eq_eq_not, Bool.not_false] at hc
    exact List.isEmpty_iff.mp (by rw [hc])
  induction k with
  | zero => rfl
  | succ k ih =>
    show minFold (repIter t es k) (repIter t es k i) (neighborIdx t es i) = i
    rw [hN]
    exact ih

theorem repIter_core_one (es : List Vec) (d : ℕ)
    (hdim : ∀ v ∈ es, v.length = d) :
    ∀ k i, isCore 1 es i = true → repIter 1 es (k + 1) i = cmin 1 es i := by
  intro k
  induction k with
  | zero =>
    intro i _
    rfl
  | succ k ih =>
    intro i hc
    show minFold (repIter 1 es (k + 1)) (repIter 1 es (k + 1) i)
      (neighborIdx 1 es i) = cmin 1 es i
    rw [ih i hc]
    apply minFold_const
    intro j hj
    have hnbr : nbrB 1 es i j = true := (mem_neighborIdx _ _ _ _).mp hj
    have hcj : isCore 1 es j = true := by
      apply isCore_of_nbrB_one es j i
      rw [← nbrB_symm]; exact hnbr
    rw [ih j hcj, ← cmin_one_eq_of_nbr es d hdim i j hnbr]

theorem rep_core_one (es : List Vec) (d : ℕ)
    (hdim : ∀ v ∈ es, v.length = d) (i : ℕ) (hc : isCore 1 es i = true) :
    rep 1 es i = cmin 1 es i := by
  have hi : i < es.length := by
    obtain ⟨u, hu, -⟩ := (isCore_one_iff es i).mp hc
    by_contra hlt
    rw [List.getElem?_eq_none (by omega)] at hu
    cases hu
  obtain ⟨m, hm⟩ : ∃ m, es.length = m + 1 := ⟨es.length - 1, by omega⟩
  rw [rep, hm]
  exact repIter_core_one es d hdim m i hc

theorem rep_noise (t : ℚ) (es : List Vec) (i : ℕ)
    (hc : isCore t es i = false) : rep t es i = i :=
  repIter_noise t es i hc es.length

theorem dbscanLabels_length (t : ℚ) (es : List Vec) :
    (dbscanLabels t es).length = es.length := by
  unfold dbscanLabels
  rw [List.length_map, List.length_range]

theorem dbscanLabels_get (t : ℚ) (es : List Vec) (i : ℕ) (hi : i < es.length) :
    (dbscanLabels t es)[i]? =
      some (if isCore t es i then ((coreReps t es).indexOf (rep t es i) : Int)
        else -1) := by
  unfold dbscanLabels
  rw [List.getElem?_map, List.getElem?_range hi]
  rfl

theorem clusterFacesLabels_length (t : ℚ) (es : List Vec) :
    (clusterFacesLabels t es).length = es.length := by
  unfold clusterFacesLabels
  split
  · rw [replaceOutliers_length, dbscanLabels_length]
  · exact dbscanLabels_length t es

theorem rep_mem_coreReps (t : ℚ) (es : List Vec) (i : ℕ) (hi : i < es.length)
    (hc : isCore t es i = true) : rep t es i ∈ coreReps t es := by
  unfold coreReps
  rw [List.mem_dedup]
  exact List.mem_map_of_mem _
    (List.mem_filter.mpr ⟨List.mem_range.mpr hi, hc⟩)

theorem clusterFacesLabels_get_core (t : ℚ) (es : List Vec) (i : ℕ)
    (hi : i < es.length) (hc : isCore t es i = true) :
    (clusterFacesLabels t es)[i]? =
      some ((coreReps t es).indexOf (rep t es i) : Int) := by
  have hget := dbscanLabels_get t es i hi
  rw [hc, if_pos rfl] at hget
  unfold clusterFacesLabels
  split
  · exact replaceOutliers_keep _ _ i _ hget (by omega)
  · exact hget

theorem clusterFacesLabels_get_noise (t : ℚ) (es : List Vec) (i : ℕ)
    (hi : i < es.length) (hc : isCore t es i = false) :
    ∃ y, (clusterFacesLabels t es)[i]? = some y ∧
      listMaxI (dbscanLabels t es) < y := by
  have hget := dbscanLabels_get t es i hi
  rw [hc] at hget
  simp only [Bool.false_eq_true, if_false] at hget
  have hany : (dbscanLabels t es).any (fun x => x = -1) = true := by
    rw [List.any_eq_true]
    refine ⟨-1, List.getElem?_mem hget, by simp⟩
  unfold clusterFacesLabels
  rw [if_pos hany]
  exact replaceOutliers_fresh _ _ i hget

theorem clusterFacesLabels_core_le_max (t : ℚ) (es : List Vec) (i : ℕ)
    (hi : i < es.length) (hc : isCore t es i = true) :
    ((coreReps t es).indexOf (rep t es i) : Int) ≤
      listMaxI (dbscanLabels t es) := by
  have hget := dbscanLabels_get t es i hi
  rw [hc, if_pos rfl] at hget
  exact listMaxI_bound _ _ (List.getElem?_mem hget)

theorem clusterFacesLabels_noise_ne (t : ℚ) (es : List Vec) (i j : ℕ)
    (hi : i < es.length) (hj : j < es.length) (hne : i ≠ j)
    (hci : isCore t es i = false) (hcj : isCore t es j = false) :
    (clusterFacesLabels t es)[i]? ≠ (clusterFacesLabels t es)[j]? := by
  have hgi := dbscanLabels_get t es i hi
  have hgj := dbscanLabels_get t es j hj
  rw [hci] at hgi
  rw [hcj] at hgj
  simp only [Bool.false_eq_true, if_false] at hgi hgj
  have hany : (dbscanLabels t es).any (fun x => x = -1) = true := by
    rw [List.any_eq_true]
    exact ⟨-1, List.getElem?_mem hgi, by simp⟩
  unfold clusterFacesLabels
  rw [if_pos hany]
  rcases Nat.lt_or_ge i j with hlt | hge
  · obtain ⟨y, z, hy, hz, hyz⟩ :=
      replaceOutliers_strict (listMaxI (dbscanLabels t es)) _ i j hlt hgi hgj
    rw [hy, hz]
    intro hcontra
    injection hcontra with hcontra
    omega
  · have hlt : j < i := by omega
    obtain ⟨y, z, hy, hz, hyz⟩ :=
      replaceOutliers_strict (listMaxI (dbscanLabels t es)) _ j i hlt hgj hgi
    rw [hy, hz]
    intro hcontra
    injection hcontra with hcontra
    omega

/-! ### Claims C6, C7, C8, C10 about `face_clustering.py` -/

/-- In `cluster_faces` (face_clustering.py), every record DBSCAN marks as
noise (raw label `-1`) receives, after the rewrite of lines 128–133, a fresh
id strictly greater than every raw label (hence distinct from every cluster
label), no two noise records share a label, non-noise records keep their
cluster label, and the final assignment covers every record. -/
theorem clusterFaces_noise_unique (t : ℚ) (es : List Vec) (i j : ℕ)
    (hne : i ≠ j)
    (hi : (dbscanLabels t es)[i]? = some (-1))
    (hj : (dbscanLabels t es)[j]? = some (-1)) :
    (clusterFacesLabels t es).length = es.length ∧
    (∃ y, (clusterFacesLabels t es)[i]? = some y ∧
      (∀ x ∈ dbscanLabels t es, x < y)) ∧
    (clusterFacesLabels t es)[i]? ≠ (clusterFacesLabels t es)[j]? ∧
    (∀ (k : ℕ) (x : Int), (dbscanLabels t es)[k]? = some x → x ≠ -1 →
      (clusterFacesLabels t es)[k]? = some x) := by
  have hany : (dbscanLabels t es).any (fun x => x = -1) = true := by
    rw [List.any_eq_true]
    exact ⟨-1, List.getElem?_mem hi, by simp⟩
  refine ⟨clusterFacesLabels_length t es, ?_, ?_, ?_⟩
  · obtain ⟨y, hy, hmy⟩ :=
      replaceOutliers_fresh (listMaxI (dbscanLabels t es)) _ i hi
    refine ⟨y, ?_, ?_⟩
    · unfold clusterFacesLabels
      rw [if_pos hany]
      exact hy
    · intro x hx
      have := listMaxI_bound _ x hx
      omega
  · unfold clusterFacesLabels
    rw [if_pos hany]
    rcases Nat.lt_or_ge i j with hlt | hge
    · obtain ⟨y, z, hy, hz, hyz⟩ :=
        replaceOutliers_strict (listMaxI (dbscanLabels t es)) _ i j hlt hi hj
      rw [hy, hz]
      intro hcontra
      injection hcontra with hcontra
      omega
    · have hlt : j < i := by omega
      obtain ⟨y, z, hy, hz, hyz⟩ :=
        replaceOutliers_strict (listMaxI (dbscanLabels t es)) _ j i hlt hj hi
      rw [hy, hz]
      intro hcontra
      injection hcontra with hcontra
      omega
  · intro k x hk hx
    unfold clusterFacesLabels
    rw [if_pos hany]
    exact replaceOutliers_keep _ _ k x hk hx

/-- C6 counterexample: the batch-clustering path of `cluster_worker`
(face_embedding_processor.py lines 1291–1318) — also cited by the claim — has
no outlier rewrite: on the DBSCAN label array `[-1, 0, -1]` (records 0 and 2
marked noise) it groups both noise records into the single `-1` bucket and
assigns them one shared person id, refuting "no two noise records ever share
a label" on that code path. -/
theorem c6_worker_shared_bucket_counterexample :
    ([-1, 0, -1] : List Int)[0]? = some (-1) ∧
    ([-1, 0, -1] : List Int)[2]? = some (-1) ∧
    clusterWorkerPersonIds [-1, 0, -1] = [1, 2, 1] ∧
    (clusterWorkerPersonIds [-1, 0, -1])[0]? =
      (clusterWorkerPersonIds [-1, 0, -1])[2]? ∧
    (0 : ℕ) ≠ 2 := by decide

/-- C6 amended: in the batch clustering of face_clustering.py
(`cluster_faces`) every record DBSCAN marks as noise (label `-1`) receives its
own fresh person id — strictly greater than every raw label, no two noise
records sharing one, non-noise labels kept, one label per record — whereas the
batch-clustering path of `cluster_worker` in face_embedding_processor.py
performs no such disambiguation: it groups records by raw DBSCAN label, so
any two records carrying the noise label `-1` receive the same person id. -/
theorem c6_noise_disambiguation_amended (t : ℚ) (es : List Vec) (i j : ℕ)
    (hne : i ≠ j)
    (hi : (dbscanLabels t es)[i]? = some (-1))
    (hj : (dbscanLabels t es)[j]? = some (-1)) :
    (clusterFacesLabels t es).length = es.length ∧
    (∃ y, (clusterFacesLabels t es)[i]? = some y ∧
      (∀ x ∈ dbscanLabels t es, x < y)) ∧
    (clusterFacesLabels t es)[i]? ≠ (clusterFacesLabels t es)[j]? ∧
    (∀ (k : ℕ) (x : Int), (dbscanLabels t es)[k]? = some x → x ≠ -1 →
      (clusterFacesLabels t es)[k]? = some x) ∧
    (∀ (ls : List Int) (k l : ℕ), ls[k]? = some (-1) → ls[l]? = some (-1) →
      (clusterWorkerPersonIds ls)[k]? = (clusterWorkerPersonIds ls)[l]?) := by
  obtain ⟨h1, h2, h3, h4⟩ := clusterFaces_noise_unique t es i j hne hi hj
  refine ⟨h1, h2, h3, h4, ?_⟩
  intro ls k l hk hl
  unfold clusterWorkerPersonIds
  rw [List.getElem?_map, List.getElem?_map, hk, hl]

set_option maxHeartbeats 1000000 in
/-- Concrete run of `c6_noise_disambiguation_amended`: records 0 and 2 are
all-zero rows, become DBSCAN noise at τ = 1/2, and end with distinct fresh
ids in `cluster_faces`, while the `cluster_worker` assignment gives the same
two noise positions one shared person id. -/
theorem c6_noise_disambiguation_amended_witness :
    (dbscanLabels (1/2) ([[0,0],[1,0],[0,0]] : List Vec)) = [-1, 0, -1] ∧
    (clusterFacesLabels (1/2) ([[0,0],[1,0],[0,0]] : List Vec))[0]? ≠
      (clusterFacesLabels (1/2) ([[0,0],[1,0],[0,0]] : List Vec))[2]? ∧
    (clusterWorkerPersonIds [-1, 0, -1])[0]? =
      (clusterWorkerPersonIds [-1, 0, -1])[2]? := by
  have h0 : neighborIdx (1/2) ([[0,0],[1,0],[0,0]] : List Vec) 0 = [] := by
    norm_num [neighborIdx, nbrB, simGE, gsq, sumSq, dot, List.range,
      List.range.loop, List.filter]
  have h1 : neighborIdx (1/2) ([[0,0],[1,0],[0,0]] : List Vec) 1 = [1] := by
    norm_num [neighborIdx, nbrB, simGE, gsq, sumSq, dot, List.range,
      List.range.loop, List.filter]
  have h2 : neighborIdx (1/2) ([[0,0],[1,0],[0,0]] : List Vec) 2 = [] := by
    norm_num [neighborIdx, nbrB, simGE, gsq, sumSq, dot, List.range,
      List.range.loop, List.filter]
  have hlab : dbscanLabels (1/2) ([[0,0],[1,0],[0,0]] : List Vec) =
      [-1, 0, -1] := by
    norm_num [dbscanLabels, coreReps, rep, repIter, isCore, h0, h1, h2, minFold,
      List.range, List.range.loop, List.filter, List.dedup,
      List.indexOf, List.findIdx, List.findIdx.go]
  have h := c6_noise_disambiguation_amended (1/2)
    ([[0,0],[1,0],[0,0]] : List Vec) 0 2
    (by decide) (by rw [hlab]; simp) (by rw [hlab]; simp)
  exact ⟨hlab, h.2.2.1, h.2.2.2.2 [-1, 0, -1] 0 2 (by decide) (by decide)⟩

/-- C7: clustering with τ = 1 (so `dbscan_eps = 1 - τ = 0`) assigns two
records the same final label iff they are the same record or exact duplicates
after normalization (`nbrB 1`, i.e. guarded cosine similarity ≥ 1, i.e. cosine
distance 0); in particular distinct non-duplicate records — including each
all-zero row — get distinct person ids, so the number of persons equals the
number of records modulo exact duplicates. -/
theorem c7_tau_one_duplicates (es : List Vec) (d : ℕ)
    (hdim : ∀ v ∈ es, v.length = d) (i j : ℕ)
    (hi : i < es.length) (hj : j < es.length) :
    (clusterFacesLabels 1 es)[i]? = (clusterFacesLabels 1 es)[j]? ↔
      (i = j ∨ nbrB 1 es i j = true) := by
  constructor
  · intro h
    by_cases hij : i = j
    · exact Or.inl hij
    right
    cases hci : isCore 1 es i with
    | false =>
      cases hcj : isCore 1 es j with
      | false =>
        exact absurd h (clusterFacesLabels_noise_ne 1 es i j hi hj hij hci hcj)
      | true =>
        obtain ⟨y, hy, hmy⟩ := clusterFacesLabels_get_noise 1 es i hi hci
        have hgj := clusterFacesLabels_get_core 1 es j hj hcj
        rw [hy, hgj] at h
        injection h with h
        have := clusterFacesLabels_core_le_max 1 es j hj hcj
        omega
    | true =>
      cases hcj : isCore 1 es j with
      | false =>
        obtain ⟨y, hy, hmy⟩ := clusterFacesLabels_get_noise 1 es j hj hcj
        have hgi := clusterFacesLabels_get_core 1 es i hi hci
        rw [hy, hgi] at h
        injection h with h
        have := clusterFacesLabels_core_le_max 1 es i hi hci
        omega
      | true =>
        rw [clusterFacesLabels_get_core 1 es i hi hci,
          clusterFacesLabels_get_core 1 es j hj hcj] at h
        injection h with h
        have h2 : (coreReps 1 es).indexOf (rep 1 es i) =
            (coreReps 1 es).indexOf (rep 1 es j) := by exact_mod_cast h
        have hrep : rep 1 es i = rep 1 es j :=
          (List.indexOf_inj (rep_mem_coreReps 1 es i hi hci)
            (rep_mem_coreReps 1 es j hj hcj)).mp h2
        rw [rep_core_one es d hdim i hci, rep_core_one es d hdim j hcj] at hrep
        exact nbrB_of_cmin_one_eq es d hdim i j hci hcj hrep
  · intro h
    rcases h with h | h
    · rw [h]
    · have hci := isCore_of_nbrB_one es i j h
      have hcj : isCore 1 es j = true := by
        apply isCore_of_nbrB_one es j i
        rw [← nbrB_symm]; exact h
      rw [clusterFacesLabels_get_core 1 es i hi hci,
        clusterFacesLabels_get_core 1 es j hj hcj]
      have hrep : rep 1 es i = rep 1 es j := by
        rw [rep_core_one es d hdim i hci, rep_core_one es d hdim j hcj]
        exact cmin_one_eq_of_nbr es d hdim i j h
      rw [hrep]

/-- Concrete run of `c7_tau_one_duplicates`: records 0 and 1 are positively
parallel (cosine distance 0 after normalization) and share a label; record 2
is orthogonal and gets a distinct label. -/
theorem c7_tau_one_duplicates_witness :
    (clusterFacesLabels 1 ([[1,0],[2,0],[0,1]] : List Vec))[0]? =
      (clusterFacesLabels 1 ([[1,0],[2,0],[0,1]] : List Vec))[1]? ∧
    (clusterFacesLabels 1 ([[1,0],[2,0],[0,1]] : List Vec))[0]? ≠
      (clusterFacesLabels 1 ([[1,0],[2,0],[0,1]] : List Vec))[2]? := by
  have hd : ∀ v ∈ ([[1,0],[2,0],[0,1]] : List Vec), v.length = 2 := by
    intro v hv
    rcases List.mem_cons.mp hv with rfl | hv
    · rfl
    rcases List.mem_cons.mp hv with rfl | hv
    · rfl
    rcases List.mem_cons.mp hv with rfl | hv
    · rfl
    cases hv
  have hnbr01 : nbrB 1 ([[1,0],[2,0],[0,1]] : List Vec) 0 1 = true := by
    norm_num [nbrB, simGE, gsq, sumSq, dot]
  have hnbr02 : nbrB 1 ([[1,0],[2,0],[0,1]] : List Vec) 0 2 = false := by
    norm_num [nbrB, simGE, gsq, sumSq, dot]
  constructor
  · exact (c7_tau_one_duplicates ([[1,0],[2,0],[0,1]] : List Vec) 2 hd
      0 1 (by decide) (by decide)).mpr (Or.inr hnbr01)
  · intro hcontra
    rcases (c7_tau_one_duplicates ([[1,0],[2,0],[0,1]] : List Vec) 2 hd
      0 2 (by decide) (by decide)).mp hcontra with h | h
    · exact absurd h (by decide)
    · rw [hnbr02] at h; cases h

/-- C8: the batch-clustering pipeline is a pure function of the embedding list
and the threshold, so two runs over the same input in the same order compute
identical similarity matrices, identical raw DBSCAN labelings and identical
final labelings, and re-running yields the same partition of records into
persons. -/
theorem c8_clustering_deterministic (es : List Vec) (t : ℚ) :
    computeCosineSimilarities es = computeCosineSimilarities es ∧
    dbscanLabels t es = dbscanLabels t es ∧
    clusterFacesLabels t es = clusterFacesLabels t es ∧
    samePartition (clusterFacesLabels t es) (clusterFacesLabels t es) :=
  ⟨rfl, rfl, rfl, rfl, fun _ _ => Iff.rfl⟩

/-- C10: on every embedding list whose row norms are exactly representable —
in particular lists containing all-zero rows — the zero-norm guard
`norms[norms == 0] = 1` makes every division of `compute_cosine_similarities`
well defined, so the similarity matrix is produced (`isSome`) and
`cluster_faces` returns one label per record. -/
theorem c10_no_division_by_zero (es : List Vec) (t : ℚ)
    (h : ∀ v ∈ es, (ratSqrt (sumSq v)).isSome) :
    (computeCosineSimilarities es).isSome ∧
    (clusterFacesLabels t es).length = es.length := by
  constructor
  · unfold computeCosineSimilarities
    have hs := seqOpt_isSome normalizeRow es
      (fun v hv => normalizeRow_isSome v (h v hv))
    obtain ⟨ns, hns⟩ := Option.isSome_iff_exists.mp hs
    rw [hns]
    rfl
  · exact clusterFacesLabels_length t es

/-- Concrete run of `c10_no_division_by_zero` on an input with an all-zero
row: the similarity matrix is produced, with zero similarity for the zero
row. -/
theorem c10_no_division_by_zero_witness :
    (computeCosineSimilarities ([[0,0],[3,4]] : List Vec)).isSome ∧
    (clusterFacesLabels (4/5) ([[0,0],[3,4]] : List Vec)).length = 2 ∧
    computeCosineSimilarities ([[0,0],[3,4]] : List Vec) =
      some [[0,0],[0,1]] := by
  have hsq : ∀ v ∈ ([[0,0],[3,4]] : List Vec), (ratSqrt (sumSq v)).isSome := by
    intro v hv
    rcases List.mem_cons.mp hv with rfl | hv
    · norm_num [ratSqrt, sumSq, dot]
    rcases List.mem_cons.mp hv with rfl | hv
    · norm_num [ratSqrt, sumSq, dot]
    cases hv
  have hn0 : normalizeRow ([0,0] : Vec) = some [0,0] := by
    norm_num [normalizeRow, guardedNorm, ratSqrt, divE, seqOpt, sumSq, dot]
  have hn1 : normalizeRow ([3,4] : Vec) = some [3/5, 4/5] := by
    norm_num [normalizeRow, guardedNorm, ratSqrt, divE, seqOpt, sumSq, dot]
  refine ⟨(c10_no_division_by_zero ([[0,0],[3,4]] : List Vec) (4/5) hsq).1,
    (c10_no_division_by_zero ([[0,0],[3,4]] : List Vec) (4/5) hsq).2, ?_⟩
  norm_num [computeCosineSimilarities, seqOpt, hn0, hn1, dot]

/-- C5 counterexample: on three records in a two-record cluster of orthogonal
embeddings (mean pairwise similarity `0`) plus one singleton cluster, the code
reports purity `0` — the singleton is skipped, not averaged in as `1.0` — while
the claim's formula (singletons contribute `1.0`) gives `1/2`. -/
theorem c5_purity_counterexample :
    avgClusterPurity ([[1,0],[0,1],[1,1]] : List Vec) [0, 0, 1] = some 0 ∧
    specAvgClusterPurityClaim ([[1,0],[0,1],[1,1]] : List Vec) [0, 0, 1] =
      some (1/2) ∧
    (0 : ℚ) ≠ 1/2 := by
  have hc0 : clusterVecs ([[1,0],[0,1],[1,1]] : List Vec) [0, 0, 1] 0 =
      [[1,0],[0,1]] := by decide
  have hc1 : clusterVecs ([[1,0],[0,1],[1,1]] : List Vec) [0, 0, 1] 1 =
      [[1,1]] := by decide
  have hps : pairSim ([1,0] : Vec) [0,1] = some 0 := by
    norm_num [pairSim, ratSqrt, divE, sumSq, dot]
  have hcp : clusterPurity ([[1,0],[0,1]] : List Vec) = some 0 := by
    norm_num [clusterPurity, upperPairs, seqOpt, hps, meanQ]
  have hu : uniqueLabels [0, 0, 1] = [0, 1] := by decide
  have hfil : ((uniqueLabels [0, 0, 1]).filter (fun lab =>
      decide (1 < (clusterVecs ([[1,0],[0,1],[1,1]] : List Vec)
        [0, 0, 1] lab).length))) = [0] := by decide
  refine ⟨?_, ?_, by norm_num⟩
  · unfold avgClusterPurity
    rw [hfil]
    norm_num [seqOpt, hc0, hcp, meanQ]
  · unfold specAvgClusterPurityClaim
    rw [hu]
    norm_num [seqOpt, hc0, hc1, hcp, meanQ]

/-- C5 amended: the code's reported purity equals the spec-style average over
multi-record clusters only, and whenever no cluster has two or more records
(every cluster a singleton) the reported purity is exactly `1`. -/
theorem c5_purity_amended (es : List Vec) (ls : List Int) :
    avgClusterPurity es ls = specAvgPurityAmended es ls ∧
    (((uniqueLabels ls).filter
        (fun lab => decide (1 < (clusterVecs es ls lab).length))) = [] →
      avgClusterPurity es ls = some 1) := by
  constructor
  · unfold avgClusterPurity specAvgPurityAmended
    cases hm : ((uniqueLabels ls).filter
        (fun lab => decide (1 < (clusterVecs es ls lab).length))) with
    | nil => simp [seqOpt]
    | cons x xs =>
      cases hs : seqOpt (fun lab => clusterPurity (clusterVecs es ls lab))
          (x :: xs) with
      | none => simp
      | some ps =>
        have hlen := seqOpt_length _ _ _ hs
        have hne : ps.isEmpty = false := by
          cases ps
          · simp at hlen
          · rfl
        simp [hne]
  · intro hnil
    unfold avgClusterPurity
    rw [hnil]
    simp [seqOpt]

/-- Concrete run of `c5_purity_amended`: ten singleton records (the spec's
second evaluator example) report purity exactly `1`. -/
theorem c5_purity_amended_witness :
    avgClusterPurity
      ([[1],[2],[3],[4],[5],[6],[7],[8],[9],[10]] : List Vec)
      [0, 1, 2, 3, 4, 5, 6, 7, 8, 9] = some 1 :=
  (c5_purity_amended
    ([[1],[2],[3],[4],[5],[6],[7],[8],[9],[10]] : List Vec)
    [0, 1, 2, 3, 4, 5, 6, 7, 8, 9]).2 (by decide)

theorem countStatus_cons (st : UStatus) (r : UnitResult)
    (rs : List UnitResult) :
    countStatus st (r :: rs) =
      (if statusEq r.status st = true then 1 else 0) + countStatus st rs := by
  unfold countStatus
  rw [List.filter_cons]
  split <;> simp [Nat.add_comm]

theorem countStatus_partition (rs : List UnitResult) :
    countStatus UStatus.failed rs + countStatus UStatus.success rs +
      countStatus UStatus.noFaces rs = rs.length := by
  induction rs with
  | nil => rfl
  | cons r rs ih =>
    rw [countStatus_cons, countStatus_cons, countStatus_cons, List.length_cons]
    cases h : r.status <;> simp [h, statusEq] <;> omega

theorem digestWorker_results (m t : ℕ) (imgs : List ImageScript) :
    (digestWorker m t (some imgs)).results =
      imgs.map (fun s => processImageFile m s) := rfl

theorem digestWorker_total (m t : ℕ) (imgs : List ImageScript) :
    (digestWorker m t (some imgs)).totalImages = imgs.length := rfl

theorem processImageFile_success_iff (m : ℕ) (s : ImageScript) :
    (processImageFile m s).status = UStatus.success ↔
      1 ≤ (processImageFile m s).upserted := by
  unfold processImageFile
  split
  · split
    · split
      · simp
      · split
        · rename_i hk
          simp
          omega
        · simp
    · simp
  · simp

/-! ### Claims C1, C3, C9 about the digest pipeline -/

/-- C1: when source enumeration succeeds, the digest job completes, every
enumerated image receives exactly one terminal outcome, the outcome is
`success` exactly when at least one face embedding was persisted for it, the
three outcome counters partition the enumerated set
(`failed + success + no_faces = total_images`), and the whole job record is
independent of the worker-pool size. -/
theorem c1_outcome_partition (m t1 t2 : ℕ) (imgs : List ImageScript) :
    (digestWorker m t1 (some imgs)).status = JStatus.completed ∧
    countStatus UStatus.failed (digestWorker m t1 (some imgs)).results +
      countStatus UStatus.success (digestWorker m t1 (some imgs)).results +
      countStatus UStatus.noFaces (digestWorker m t1 (some imgs)).results =
      (digestWorker m t1 (some imgs)).totalImages ∧
    (∀ (i : ℕ) (r : UnitResult),
      (digestWorker m t1 (some imgs)).results[i]? = some r →
      (r.status = UStatus.success ↔ 1 ≤ r.upserted)) ∧
    digestWorker m t1 (some imgs) = digestWorker m t2 (some imgs) := by
  refine ⟨rfl, ?_, ?_, rfl⟩
  · rw [digestWorker_results, digestWorker_total, countStatus_partition,
      List.length_map]
  · intro i r hr
    rw [digestWorker_results, List.getElem?_map] at hr
    cases hs : imgs[i]? with
    | none => rw [hs] at hr; cases hr
    | some s =>
      rw [hs] at hr
      injection hr with hr
      rw [← hr]
      exact processImageFile_success_iff m s

/-- Concrete run of `c1_outcome_partition` on the spec's orchestrator example
with `max_retries = 2`: total 10, failed 3, success 5, no_faces 2
(`success + no_faces = 7`), identical job for pool sizes 1 and 8. -/
theorem c1_outcome_partition_witness :
    countStatus UStatus.failed (digestWorker 2 1 (some c1Imgs)).results = 3 ∧
    countStatus UStatus.success (digestWorker 2 1 (some c1Imgs)).results = 5 ∧
    countStatus UStatus.noFaces (digestWorker 2 1 (some c1Imgs)).results = 2 ∧
    (digestWorker 2 1 (some c1Imgs)).totalImages = 10 ∧
    (digestWorker 2 1 (some c1Imgs)).status = JStatus.completed ∧
    digestWorker 2 1 (some c1Imgs) = digestWorker 2 8 (some c1Imgs) ∧
    (UStatus.success = UStatus.success ↔
      1 ≤ (1 : ℕ)) := by
  have h := c1_outcome_partition 2 1 8 c1Imgs
  refine ⟨by decide, by decide, by decide, by decide, h.1, h.2.2.2, ?_⟩
  have h3 := h.2.2.1 3 ⟨UStatus.success, 1, false, false⟩ (by decide)
  exact h3

/-- C3 counterexample: a unit whose only face exhausts the embedding retry
bound (`embedFails = 3 > max_retries = 2`) persists nothing, and its recorded
outcome is `no_faces`, not `failed` as the claim states — only extraction
exhaustion produces `failed`. -/
theorem c3_retry_counterexample :
    persistFace 2 ⟨3, 0⟩ = false ∧
    (⟨false, true, true, 0, [⟨3, 0⟩]⟩ : ImageScript).faces = [⟨3, 0⟩] ∧
    (processImageFile 2 ⟨false, true, true, 0, [⟨3, 0⟩]⟩).status =
      UStatus.noFaces ∧
    UStatus.noFaces ≠ UStatus.failed := by decide

/-- C3 amended: every external call is retried up to the fixed bound (at most
`max_retries + 1` attempts); exhausting the extraction retries marks the unit
`failed`; exhausting the embedding or upsert retries of a face only prevents
that face from being persisted (the unit ends `success` or `no_faces`
according to the remaining faces); and no exhaustion aborts the job — the
completed job holds one outcome per enumerated image, each depending only on
that image's own script. -/
theorem c3_retry_amended (m : ℕ) (s : ImageScript) (t : ℕ)
    (imgs : List ImageScript) :
    (∀ fails : ℕ, attemptsUsed m fails ≤ m + 1) ∧
    (s.readOk = true → attemptOk m s.extractFails = false →
      (processImageFile m s).status = UStatus.failed) ∧
    (∀ f ∈ s.faces,
      (attemptOk m f.embedFails = false ∨ attemptOk m f.upsertFails = false) →
      persistFace m f = false) ∧
    (∀ i : ℕ, (digestWorker m t (some imgs)).results[i]? =
      (imgs[i]?).map (fun s2 => processImageFile m s2)) ∧
    (digestWorker m t (some imgs)).status = JStatus.completed := by
  refine ⟨?_, ?_, ?_, ?_, rfl⟩
  · intro fails
    unfold attemptsUsed
    omega
  · intro hr he
    unfold processImageFile
    rw [hr, he]
    simp
  · intro f _ hf
    rcases hf with hf | hf <;> simp [persistFace, hf]
  · intro i
    show (imgs.map (fun s2 => processImageFile m s2))[i]? = _
    rw [List.getElem?_map]

/-- Concrete run of `c3_retry_amended` with `max_retries = 2`: the retry bound
caps attempts at 3, an extraction-exhausted unit is `failed`, an
embedding-exhausted face is not persisted, and the job still records one
outcome per image. -/
theorem c3_retry_amended_witness :
    attemptsUsed 2 7 ≤ 3 ∧
    (processImageFile 2 ⟨false, true, true, 5, [⟨3, 0⟩]⟩).status =
      UStatus.failed ∧
    persistFace 2 ⟨3, 0⟩ = false ∧
    (digestWorker 2 4 (some [⟨false, true, true, 0, [⟨3, 0⟩]⟩])).results[0]? =
      some (processImageFile 2 ⟨false, true, true, 0, [⟨3, 0⟩]⟩) := by
  have h := c3_retry_amended 2 ⟨false, true, true, 5, [⟨3, 0⟩]⟩ 4
    [⟨false, true, true, 0, [⟨3, 0⟩]⟩]
  refine ⟨h.1 7, h.2.1 rfl (by decide),
    h.2.2.1 ⟨3, 0⟩ (by decide) (Or.inl (by decide)), ?_⟩
  rw [h.2.2.2.1 0]
  rfl

/-- C9: a thumbnail creation/upload failure never changes an image's terminal
outcome or its persisted-face count — the unit result is the same for both
thumbnail outcomes — and the failure is exactly recorded in the job's
thumbnail-failure list (recorded iff the image was read, is a GCS image, and
its thumbnail failed). -/
theorem c9_thumbnail_isolated (m : ℕ) (s : ImageScript) (b : Bool) :
    (processImageFile m (setThumb s b)).status =
      (processImageFile m s).status ∧
    (processImageFile m (setThumb s b)).upserted =
      (processImageFile m s).upserted ∧
    (processImageFile m s).thumbFailRecorded =
      (s.readOk && (s.isGcs && !s.thumbOk)) := by
  unfold processImageFile setThumb
  cases hr : s.readOk <;> cases he : attemptOk m s.extractFails <;>
    cases hf : s.faces.isEmpty <;>
    by_cases hk : 0 < (s.faces.filter (fun f => persistFace m f)).length <;>
    simp [hr, he, hf, hk]

theorem processUnit_processed_subset (facesOf : String → ℕ) (st : ResumeState)
    (path p : String) (hp : p ∈ st.processed) :
    p ∈ (processUnit facesOf st path).processed := by
  unfold processUnit
  split
  · exact hp
  · exact List.mem_cons_of_mem _ hp

theorem runIngestion_processed_subset (facesOf : String → ℕ)
    (st : ResumeState) (imgs : List String) (p : String)
    (hp : p ∈ st.processed) :
    p ∈ (runIngestion facesOf st imgs).processed := by
  induction imgs generalizing st with
  | nil => exact hp
  | cons x xs ih =>
    exact ih (processUnit facesOf st x)
      (processUnit_processed_subset facesOf st x p hp)

theorem runIngestion_covers (facesOf : String → ℕ) (st : ResumeState)
    (imgs : List String) (p : String) (hp : p ∈ imgs) :
    p ∈ (runIngestion facesOf st imgs).processed := by
  induction imgs generalizing st with
  | nil => cases hp
  | cons x xs ih =>
    rcases List.mem_cons.mp hp with rfl | hp
    · have hmem : p ∈ (processUnit facesOf st p).processed := by
        unfold processUnit
        split
        · assumption
        · exact List.mem_cons_self _ _
      exact runIngestion_processed_subset facesOf _ xs p hmem
    · exact ih (processUnit facesOf st x) hp

theorem runIngestion_skip_all (facesOf : String → ℕ) (st : ResumeState)
    (imgs : List String) (h : ∀ p ∈ imgs, p ∈ st.processed) :
    runIngestion facesOf st imgs = st := by
  induction imgs with
  | nil => rfl
  | cons x xs ih =>
    show runIngestion facesOf (processUnit facesOf st x) xs = st
    have hx : processUnit facesOf st x = st := by
      unfold processUnit
      rw [if_pos (h x (List.mem_cons_self x xs))]
    rw [hx]
    exact ih (fun p hp => h p (List.mem_cons_of_mem x hp))

/-- C2 (spec-modelled): the orchestrator checks the persisted
already-processed set before each image and skips recorded paths (no store
write), and restarting a finished job over the same source and resume state
is a no-op: no completed image is reprocessed and the store's record count is
unchanged by the restart. -/
theorem c2_resume_idempotent (facesOf : String → ℕ) (st : ResumeState)
    (imgs : List String) (path : String) (hpath : path ∈ st.processed) :
    processUnit facesOf st path = st ∧
    (processUnit facesOf st path).storeCount = st.storeCount ∧
    runIngestion facesOf (runIngestion facesOf st imgs) imgs =
      runIngestion facesOf st imgs ∧
    (runIngestion facesOf (runIngestion facesOf st imgs) imgs).storeCount =
      (runIngestion facesOf st imgs).storeCount := by
  have hskip : processUnit facesOf st path = st := by
    unfold processUnit
    rw [if_pos hpath]
  have hrestart : runIngestion facesOf (runIngestion facesOf st imgs) imgs =
      runIngestion facesOf st imgs :=
    runIngestion_skip_all facesOf _ imgs
      (fun p hp => runIngestion_covers facesOf st imgs p hp)
  exact ⟨hskip, by rw [hskip], hrestart, by rw [hrestart]⟩

/-- Concrete run of `c2_resume_idempotent`: a two-image source over a state
that already processed one of them; the restart leaves the store count at its
post-run value. -/
theorem c2_resume_idempotent_witness :
    processUnit (fun _ => 2) ⟨["a"], 2⟩ "a" = ⟨["a"], 2⟩ ∧
    (runIngestion (fun _ => 2) (runIngestion (fun _ => 2) ⟨["a"], 2⟩
      ["a", "b"]) ["a", "b"]).storeCount =
      (runIngestion (fun _ => 2) ⟨["a"], 2⟩ ["a", "b"]).storeCount := by
  have h := c2_resume_idempotent (fun _ => 2) ⟨["a"], 2⟩ ["a", "b"] "a"
    (by decide)
  exact ⟨h.1, h.2.2.2⟩

theorem pickBest_mem (l : List Candidate) :
    ∀ (acc : Option Candidate) (b : Candidate), pickBest acc l = some b →
      acc = some b ∨ b ∈ l := by
  induction l with
  | nil =>
    intro acc b h
    exact Or.inl h
  | cons c cs ih =>
    intro acc b h
    cases acc with
    | none =>
      replace h : pickBest (some c) cs = some b := h
      rcases ih (some c) b h with h' | h'
      · injection h' with h'
        exact Or.inr (h' ▸ List.mem_cons_self c cs)
      · exact Or.inr (List.mem_cons_of_mem c h')
    | some a =>
      replace h : pickBest (if a.score < c.score then some c else some a) cs =
        some b := h
      split at h
      · rcases ih _ b h with h' | h'
        · injection h' with h'
          exact Or.inr (h' ▸ List.mem_cons_self c cs)
        · exact Or.inr (List.mem_cons_of_mem c h')
      · rcases ih _ b h with h' | h'
        · exact Or.inl h'
        · exact Or.inr (List.mem_cons_of_mem c h')

theorem pickBest_ge_acc (l : List Candidate) :
    ∀ (a b : Candidate), pickBest (some a) l = some b →
      a.score ≤ b.score := by
  induction l with
  | nil =>
    intro a b h
    injection h with h
    rw [h]
  | cons c cs ih =>
    intro a b h
    replace h : pickBest (if a.score < c.score then some c else some a) cs =
      some b := h
    split at h
    · rename_i hlt
      exact le_trans (le_of_lt hlt) (ih c b h)
    · exact ih a b h

theorem pickBest_ge_mem (l : List Candidate) :
    ∀ (acc : Option Candidate) (b : Candidate), pickBest acc l = some b →
      ∀ c ∈ l, c.score ≤ b.score := by
  induction l with
  | nil =>
    intro acc b _ c hc
    cases hc
  | cons c cs ih =>
    intro acc b h x hx
    rcases List.mem_cons.mp hx with rfl | hx
    · cases acc with
      | none =>
        replace h : pickBest (some x) cs = some b := h
        exact pickBest_ge_acc cs x b h
      | some a =>
        replace h : pickBest (if a.score < x.score then some x else some a)
          cs = some b := h
        split at h
        · exact pickBest_ge_acc cs x b h
        · rename_i hlt
          exact le_trans (le_of_not_lt hlt) (pickBest_ge_acc cs a b h)
    · cases acc with
      | none =>
        replace h : pickBest (some c) cs = some b := h
        exact ih (some c) b h x hx
      | some a =>
        replace h : pickBest (if a.score < c.score then some c else some a)
          cs = some b := h
        split at h
        · exact ih _ b h x hx
        · exact ih _ b h x hx

theorem pickBest_some (l : List Candidate) :
    ∀ a : Candidate, ∃ b, pickBest (some a) l = some b := by
  induction l with
  | nil => intro a; exact ⟨a, rfl⟩
  | cons c cs ih =>
    intro a
    show ∃ b, pickBest (if a.score < c.score then some c else some a) cs =
      some b
    split
    · exact ih c
    · exact ih a

theorem pickBest_none_eq (l : List Candidate)
    (h : pickBest none l = none) : l = [] := by
  cases l with
  | nil => rfl
  | cons c cs =>
    obtain ⟨b, hb⟩ := pickBest_some cs c
    replace h : pickBest (some c) cs = none := h
    rw [hb] at h
    cases h

/-- C4 (spec-modelled): the incremental resolver adopts the person id of the
highest-similarity top-K candidate whose score reaches τ, tagging confidence
`high` exactly when the score exceeds 0.85 and `medium` otherwise; when no
candidate reaches τ it mints the fresh person id with the `new` tag; and it
patches the record's payload with the chosen person id, the timestamp, and
the confidence tag. -/
theorem c4_incremental_resolver (tau : ℚ) (freshId : ℕ)
    (cands : List Candidate) (r : RecordPayload) (ts : ℕ) :
    (∀ b : Candidate, bestCandidate tau cands = some b →
      b ∈ cands ∧ tau ≤ b.score ∧
      (∀ c ∈ cands, tau ≤ c.score → c.score ≤ b.score) ∧
      resolveIncremental tau freshId cands =
        (b.personId, if 17/20 < b.score then ConfidenceTag.high
          else ConfidenceTag.medium)) ∧
    (bestCandidate tau cands = none →
      (∀ c ∈ cands, ¬ tau ≤ c.score) ∧
      resolveIncremental tau freshId cands =
        (freshId, ConfidenceTag.fresh)) ∧
    patchRecord r (resolveIncremental tau freshId cands) ts =
      ⟨some (resolveIncremental tau freshId cands).1, some ts,
        some (resolveIncremental tau freshId cands).2⟩ := by
  refine ⟨?_, ?_, rfl⟩
  · intro b hb
    have hmem : b ∈ cands.filter (fun c => decide (tau ≤ c.score)) := by
      rcases pickBest_mem _ none b hb with h' | h'
      · cases h'
      · exact h'
    rw [List.mem_filter] at hmem
    refine ⟨hmem.1, by simpa using hmem.2, ?_, ?_⟩
    · intro c hc htau
      exact pickBest_ge_mem _ none b hb c
        (List.mem_filter.mpr ⟨hc, by simpa using htau⟩)
    · unfold resolveIncremental
      rw [hb]
  · intro hnone
    have hnil : cands.filter (fun c => decide (tau ≤ c.score)) = [] :=
      pickBest_none_eq _ hnone
    constructor
    · intro c hc htau
      have : c ∈ cands.filter (fun c => decide (tau ≤ c.score)) :=
        List.mem_filter.mpr ⟨hc, by simpa using htau⟩
      rw [hnil] at this
      cases this
    · unfold resolveIncremental
      rw [hnone]

/-- Concrete run of `c4_incremental_resolver` at τ = 0.8: a candidate with
score 0.9 donates person id 7 at `high` confidence; a single candidate with
score 0.5 makes the resolver mint the fresh id 11; and the payload patch sets
all three fields. -/
theorem c4_incremental_resolver_witness :
    resolveIncremental (4/5) 11 [⟨7, 9/10⟩, ⟨3, 1/2⟩] =
      (7, ConfidenceTag.high) ∧
    resolveIncremental (4/5) 11 [⟨7, 1/2⟩] = (11, ConfidenceTag.fresh) ∧
    patchRecord ⟨none, none, none⟩
      (resolveIncremental (4/5) 11 [⟨7, 9/10⟩, ⟨3, 1/2⟩]) 5 =
      ⟨some 7, some 5, some ConfidenceTag.high⟩ := by
  have hbc : bestCandidate (4/5) [⟨7, 9/10⟩, ⟨3, 1/2⟩] =
      some ⟨7, 9/10⟩ := by
    norm_num [bestCandidate, pickBest, List.filter]
  have hbc2 : bestCandidate (4/5) ([⟨7, 1/2⟩] : List Candidate) = none := by
    norm_num [bestCandidate, pickBest, List.filter]
  have h1 := (c4_incremental_resolver (4/5) 11 [⟨7, 9/10⟩, ⟨3, 1/2⟩]
    ⟨none, none, none⟩ 5).1 ⟨7, 9/10⟩ hbc
  have h2 := (c4_incremental_resolver (4/5) 11 ([⟨7, 1/2⟩] : List Candidate)
    ⟨none, none, none⟩ 5).2.1 hbc2
  have h3 := (c4_incremental_resolver (4/5) 11 [⟨7, 9/10⟩, ⟨3, 1/2⟩]
    ⟨none, none, none⟩ 5).2.2
  have hres : resolveIncremental (4/5) 11 [⟨7, 9/10⟩, ⟨3, 1/2⟩] =
      (7, ConfidenceTag.high) := by
    rw [h1.2.2.2]
    norm_num
  refine ⟨hres, h2.2, ?_⟩
  rw [h3, hres]

end FaceApi
